import Mathlib

/-!
Verification of the FamPlex ontology graph core (`famplex/graph.py`,
`famplex/load.py`, `famplex/validate.py`) against its specification.

The graph is built once from the rows of `relations.csv`; we embed the
construction parametrically in the relation list.  Terms are
(namespace, id) pairs of strings, adjacency lists hold
(namespace, id, relation) triples, exactly as in the Python code.

Python's sorting of adjacency lists and root lists (case-insensitive, by
namespace then id) only permutes those lists; every property verified here
is invariant under permutation of the stored lists, so the sort calls are
omitted from the embedding.
-/

/-- A term of the ontology: a (namespace, id) pair. -/
abbrev Node := String × String

/-- An adjacency entry: (namespace, id, relation) as stored in the Python
adjacency lists. -/
abbrev Edge := String × String × String

/-- One row of `relations.csv`: (namespace1, id1, relation, namespace2, id2). -/
structure Relation where
  ns1 : String
  id1 : String
  rel : String
  ns2 : String
  id2 : String
deriving DecidableEq, Repr

/-- Forward adjacency: `graph[(namespace1, id1)].append((namespace2, id2, relation))`.
A node that is no key of the Python dict gets the empty list here. -/
def fwdAdj (rels : List Relation) (node : Node) : List Edge :=
  rels.filterMap fun r =>
    if (r.ns1, r.id1) = node then some (r.ns2, r.id2, r.rel) else none

/-- Reverse adjacency: `reverse_graph[(namespace2, id2)].append((namespace1, id1, relation))`. -/
def revAdj (rels : List Relation) (node : Node) : List Edge :=
  rels.filterMap fun r =>
    if (r.ns2, r.id2) = node then some (r.ns1, r.id1, r.rel) else none

/-- `left_set`: the set of terms appearing as a relation source.  Membership
in the Python set is a Bool-valued test here. -/
def inLeftSet (rels : List Relation) (node : Node) : Bool :=
  rels.any fun r => decide ((r.ns1, r.id1) = node)

/-- `right_set`: the set of terms appearing as a relation target. -/
def inRightSet (rels : List Relation) (node : Node) : Bool :=
  rels.any fun r => decide ((r.ns2, r.id2) = node)

/-- All relation targets, with multiplicity (the right column of the table). -/
def rightNodes (rels : List Relation) : List Node :=
  rels.map fun r => (r.ns2, r.id2)

/-- All relation sources, with multiplicity (the left column of the table). -/
def leftNodes (rels : List Relation) : List Node :=
  rels.map fun r => (r.ns1, r.id1)

/-- `root_classes = sorted(right_set - left_set, ...)`: the terms appearing as
a target but never as a source.  `dedup` plays the role of the Python set. -/
def rootClasses (rels : List Relation) : List Node :=
  (rightNodes rels).dedup.filter fun node => !inLeftSet rels node

/-- The body of the loop over a node's children inside `_traverse`:

    for ns, id_, rel in children:
        if (ns, id_) not in visited and rel in relation_types:
            queue.appendleft((ns, id_))
            visited.add((ns, id_))

The accumulator is the pair (queue, visited); the queue is modelled with its
dequeue end at the head, so `appendleft` becomes appending at the tail. -/
def enqueueChild (relation_types : List String) (acc : List Node × List Node)
    (e : Edge) : List Node × List Node :=
  match e with
  | (ns, id_, rel) =>
    if (ns, id_) ∉ acc.2 ∧ rel ∈ relation_types then
      (acc.1 ++ [(ns, id_)], (ns, id_) :: acc.2)
    else acc

/-- The loop of `_traverse`: repeatedly dequeue a node, enqueue its unvisited
children reached through an admitted relation type, and yield the node.  The
Python generator needs no fuel; here the fuel argument dominates the number
of iterations (each iteration dequeues one node, and a node is enqueued at
most once), and `traverse` below supplies enough of it. -/
def traverseAux (g : Node → List Edge) (relation_types : List String) :
    Nat → List Node → List Node → List Node
  | _, [], _ => []
  | 0, _ :: _, _ => []
  | fuel + 1, n :: rest, visited =>
    let p := (g n).foldl (enqueueChild relation_types) (rest, visited)
    n :: traverseAux g relation_types fuel p.1 p.2

/-- `_traverse(graph, source, relation_types)`: breadth-first traversal from
`source` along edges whose relation type lies in `relation_types`, starting
with `visited = {source}` and `queue = deque([source])`.  The fuel
`rels.length + 1` strictly bounds the number of dequeue steps. -/
def traverse (rels : List Relation) (g : Node → List Edge) (source : Node)
    (relation_types : List String) : List Node :=
  traverseAux g relation_types (rels.length + 1) [source] [source]

/-- The kind filter `['isa', 'partof']` that `relation_types=None` defaults to. -/
def allKinds : List String := ["isa", "partof"]

/-- `_root_class_mapping`: the loop

    for entry in root_classes:
        for node in self._traverse(reverse_graph, entry, ['isa', 'partof']):
            root_class_mapping[node].append(entry)

appends `entry` to `node`'s list exactly when `node` occurs in the reverse
traversal from `entry`; hence a node's list is the sublist of `root_classes`
of the roots whose reverse traversal visits it, and the node is a key of the
Python dict exactly when that list is nonempty. -/
def rootsOf (rels : List Relation) (node : Node) : List Node :=
  (rootClasses rels).filter fun entry =>
    decide (node ∈ traverse rels (revAdj rels) entry allKinds)

/-- `FamplexGraph.__error_message`. -/
def NotInOntologyMsg : String := "Given input is not in the FamPlex ontology."

/-- `in_famplex(namespace, id_)`: `(namespace, id_) in self._root_class_mapping`. -/
def in_famplex (rels : List Relation) (ns id_ : String) : Bool :=
  !(rootsOf rels (ns, id_)).isEmpty

/-- `root_terms(namespace, id_)`: the precomputed root list, or a ValueError
(`NotInOntology`) when the term is no key of the root-class mapping.  Python
exceptions are modelled with `Except.error`. -/
def root_terms (rels : List Relation) (ns id_ : String) :
    Except String (List Node) :=
  let roots := rootsOf rels (ns, id_)
  if roots.isEmpty then Except.error NotInOntologyMsg else Except.ok roots

/-- `child_terms(namespace, id_, relation_types)`: the kind-filtered direct
reverse adjacency; `[]` for a term that is only a key of the forward graph;
a ValueError (`NotInOntology`) when the term is a key of neither graph.
A node is a key of `reverse_graph` exactly when it appears as a target, and
a key of `graph` exactly when it appears as a source. -/
def child_terms (rels : List Relation) (ns id_ : String)
    (relation_types : List String) : Except String (List Node) :=
  if inRightSet rels (ns, id_) then
    Except.ok ((revAdj rels (ns, id_)).filterMap fun e =>
      match e with
      | (ns2, id2, rel) => if rel ∈ relation_types then some (ns2, id2) else none)
  else if inLeftSet rels (ns, id_) then Except.ok []
  else Except.error NotInOntologyMsg

/-- `ancestral_terms(namespace, id_, relation_types)`: raises when the term is
not in FamPlex, else the forward traversal output without its first element
(`output[1:]`, the source itself). -/
def ancestral_terms (rels : List Relation) (ns id_ : String)
    (relation_types : List String) : Except String (List Node) :=
  if in_famplex rels ns id_ then
    Except.ok ((traverse rels (fwdAdj rels) (ns, id_) relation_types).drop 1)
  else Except.error NotInOntologyMsg

/-- `descendant_terms(namespace, id_, relation_types)`: the same over the
reverse graph. -/
def descendant_terms (rels : List Relation) (ns id_ : String)
    (relation_types : List String) : Except String (List Node) :=
  if in_famplex rels ns id_ then
    Except.ok ((traverse rels (revAdj rels) (ns, id_) relation_types).drop 1)
  else Except.error NotInOntologyMsg

/-- `_rel(namespace1, id1, namespace2, id2, relation_types)`: False when either
term is no key of the root-class mapping; else, when the two root lists
intersect, whether the forward traversal from the first term meets the second
term; else False. -/
def _rel (rels : List Relation) (namespace1 id1 namespace2 id2 : String)
    (relation_types : List String) : Bool :=
  let roots1 := rootsOf rels (namespace1, id1)
  let roots2 := rootsOf rels (namespace2, id2)
  if roots1.isEmpty || roots2.isEmpty then false
  else if roots1.any fun r => decide (r ∈ roots2) then
    decide ((namespace2, id2) ∈
      traverse rels (fwdAdj rels) (namespace1, id1) relation_types)
  else false

/-- `isa(namespace1, id1, namespace2, id2)`. -/
def isa (rels : List Relation) (namespace1 id1 namespace2 id2 : String) : Bool :=
  _rel rels namespace1 id1 namespace2 id2 ["isa"]

/-- `partof(namespace1, id1, namespace2, id2)`. -/
def partof (rels : List Relation) (namespace1 id1 namespace2 id2 : String) : Bool :=
  _rel rels namespace1 id1 namespace2 id2 ["partof"]

/-- `refinement_of(namespace, id1, namespace2, id2)`. -/
def refinement_of (rels : List Relation) (namespace1 id1 namespace2 id2 : String) : Bool :=
  _rel rels namespace1 id1 namespace2 id2 ["isa", "partof"]

/-- `equivalences(fplx_id)` over the rows of `equivalences.csv` (each row is
(namespace, id, famplex id)): the dict `_equivalences` maps a famplex id to
the (ns, id) pairs of its rows and has that id as a key exactly when at least
one row carries it; `get` on a missing key yields None and a ValueError. -/
def equivalences (eqRows : List (String × String × String)) (fplx_id : String) :
    Except String (List (String × String)) :=
  let equiv := eqRows.filterMap fun row =>
    match row with
    | (ns, id_, fid) => if fid = fplx_id then some (ns, id_) else none
  if equiv.isEmpty then Except.error "Input ID does not exist in FamPlex."
  else Except.ok equiv

/-- Python's `enumerate`, starting at index `i`. -/
def enumerateFrom (i : Nat) : List (List String) → List (Nat × List String)
  | [] => []
  | row :: rows => (i, row) :: enumerateFrom (i + 1) rows

/-- `find_invalid_rows(rows, expected_length)` from `famplex/validate.py`:
collects `(index, observed_length)` for every row whose length differs from
the expected length, and never raises. -/
def find_invalid_rows (rows : List (List String)) (expected_length : Nat) :
    List (Nat × Nat) :=
  (enumerateFrom 0 rows).filterMap fun p =>
    if p.2.length ≠ expected_length then some (p.1, p.2.length) else none

/-- `load_relations()` from `famplex/load.py`: returns the parsed rows of
`relations.csv` unchanged; it performs no per-row validation and raises
nothing.  File reading is outside the embedding, so the function is modelled
over the already parsed row list; the `Except` result type records that no
row makes it fail. -/
def load_relations (rows : List (List String)) :
    Except String (List (List String)) :=
  Except.ok rows

/-- Modelled from the spec: the `unconditional full forward BFS from the
first term restricted to the requested kinds that checks whether the second
term is reached`, with no common-root pre-filter and no membership check
(claim C4 compares `_rel` against this). -/
def full_traversal_check (rels : List Relation) (node1 node2 : Node)
    (relation_types : List String) : Bool :=
  decide (node2 ∈ traverse rels (fwdAdj rels) node1 relation_types)

/-- `source` is connected to `target` by a path of edges of `g` whose
relation types all lie in `relation_types`. -/
inductive Reach (g : Node → List Edge) (relation_types : List String) :
    Node → Node → Prop where
  | refl (a : Node) : Reach g relation_types a a
  | tail {a b : Node} {ns id_ rel : String} :
      Reach g relation_types a b → (ns, id_, rel) ∈ g b →
      rel ∈ relation_types → Reach g relation_types a (ns, id_)

/-- A two-edge chain mixing the relation kinds: A isa B, B partof C. -/
def relsChain : List Relation :=
  [⟨"FPLX", "A", "isa", "FPLX", "B"⟩, ⟨"FPLX", "B", "partof", "FPLX", "C"⟩]

/-- A single isa edge: A isa B. -/
def relsSingle : List Relation :=
  [⟨"FPLX", "A", "isa", "FPLX", "B"⟩]

/-- A two-node isa cycle: A isa B, B isa A.  No term reaches a root. -/
def relsCycle : List Relation :=
  [⟨"FPLX", "A", "isa", "FPLX", "B"⟩, ⟨"FPLX", "B", "isa", "FPLX", "A"⟩]

/-- The estrogen-receptor fixture of the spec: ESR1 isa ESR, ESR2 isa ESR. -/
def relsESR : List Relation :=
  [⟨"HGNC", "ESR1", "isa", "FPLX", "ESR"⟩, ⟨"HGNC", "ESR2", "isa", "FPLX", "ESR"⟩]

/-- One equivalence row, as in the spec's ESR example. -/
def eqRowsESR : List (String × String × String) :=
  [("BEL", "ESR Family", "ESR")]

theorem Reach.single {g : Node → List Edge} {K : List String} {a : Node}
    {ns id_ rel : String} (he : (ns, id_, rel) ∈ g a) (hr : rel ∈ K) :
    Reach g K a (ns, id_) :=
  Reach.tail (Reach.refl a) he hr

theorem Reach.trans {g : Node → List Edge} {K : List String} {a b c : Node}
    (h1 : Reach g K a b) (h2 : Reach g K b c) : Reach g K a c := by
  induction h2 with
  | refl => exact h1
  | tail _ he hr ih => exact Reach.tail ih he hr

theorem Reach.head {g : Node → List Edge} {K : List String} {a m c : Node}
    {rel : String} (he : (m.1, m.2, rel) ∈ g a) (hr : rel ∈ K)
    (h : Reach g K m c) : Reach g K a c :=
  Reach.trans (Reach.single he hr) h

theorem Reach.mono {g : Node → List Edge} {K K' : List String} {a b : Node}
    (hK : K ⊆ K') (h : Reach g K a b) : Reach g K' a b := by
  induction h with
  | refl => exact Reach.refl _
  | tail _ he hr ih => exact Reach.tail ih he (hK hr)

theorem mem_fwdAdj {rels : List Relation} {n : Node} {e : Edge} :
    e ∈ fwdAdj rels n ↔ ∃ r ∈ rels, (r.ns1, r.id1) = n ∧ e = (r.ns2, r.id2, r.rel) := by
  simp only [fwdAdj, List.mem_filterMap]
  constructor
  · rintro ⟨r, hr, hre⟩
    split at hre
    · exact ⟨r, hr, by simp_all⟩
    · simp at hre
  · rintro ⟨r, hr, hn, he⟩
    exact ⟨r, hr, by simp [hn, he]⟩

theorem mem_revAdj {rels : List Relation} {n : Node} {e : Edge} :
    e ∈ revAdj rels n ↔ ∃ r ∈ rels, (r.ns2, r.id2) = n ∧ e = (r.ns1, r.id1, r.rel) := by
  simp only [revAdj, List.mem_filterMap]
  constructor
  · rintro ⟨r, hr, hre⟩
    split at hre
    · exact ⟨r, hr, by simp_all⟩
    · simp at hre
  · rintro ⟨r, hr, hn, he⟩
    exact ⟨r, hr, by simp [hn, he]⟩

theorem fwdAdj_flip {rels : List Relation} {a : Node} {ns id_ rel : String}
    (h : (ns, id_, rel) ∈ fwdAdj rels a) : (a.1, a.2, rel) ∈ revAdj rels (ns, id_) := by
  rcases mem_fwdAdj.mp h with ⟨r, hr, hn, he⟩
  refine mem_revAdj.mpr ⟨r, hr, ?_, ?_⟩
  · simp only [Prod.mk.injEq] at he
    simp [he.1, he.2]
  · simp only [Prod.mk.injEq] at he
    rw [← hn]
    simp [he.2.2]

theorem revAdj_flip {rels : List Relation} {a : Node} {ns id_ rel : String}
    (h : (ns, id_, rel) ∈ revAdj rels a) : (a.1, a.2, rel) ∈ fwdAdj rels (ns, id_) := by
  rcases mem_revAdj.mp h with ⟨r, hr, hn, he⟩
  refine mem_fwdAdj.mpr ⟨r, hr, ?_, ?_⟩
  · simp only [Prod.mk.injEq] at he
    simp [he.1, he.2]
  · simp only [Prod.mk.injEq] at he
    rw [← hn]
    simp [he.2.2]

theorem reach_flip_of {g h : Node → List Edge}
    (hflip : ∀ (a : Node) (ns id_ rel : String),
      (ns, id_, rel) ∈ g a → (a.1, a.2, rel) ∈ h (ns, id_))
    {K : List String} {a b : Node} (hr : Reach g K a b) : Reach h K b a := by
  induction hr with
  | refl => exact Reach.refl _
  | tail _ he hrel ih => exact Reach.head (hflip _ _ _ _ he) hrel ih

theorem reach_fwd_iff_rev {rels : List Relation} {K : List String} {a b : Node} :
    Reach (fwdAdj rels) K a b ↔ Reach (revAdj rels) K b a :=
  ⟨reach_flip_of (fun _ _ _ _ => fwdAdj_flip),
   reach_flip_of (fun _ _ _ _ => revAdj_flip)⟩

theorem foldEnq_visited_mono {K : List String} :
    ∀ (cs : List Edge) (q v : List Node) (x : Node), x ∈ v →
      x ∈ (cs.foldl (enqueueChild K) (q, v)).2 := by
  intro cs
  induction cs with
  | nil => intro q v x hx; simpa using hx
  | cons c cs ih =>
    intro q v x hx
    obtain ⟨ns, id_, rel⟩ := c
    rw [List.foldl_cons]
    by_cases hc : (ns, id_) ∉ v ∧ rel ∈ K
    · rw [enqueueChild, if_pos hc]
      exact ih _ _ x (List.mem_cons_of_mem _ hx)
    · rw [enqueueChild, if_neg hc]
      exact ih _ _ x hx

theorem foldEnq_queue_mono {K : List String} :
    ∀ (cs : List Edge) (q v : List Node) (x : Node), x ∈ q →
      x ∈ (cs.foldl (enqueueChild K) (q, v)).1 := by
  intro cs
  induction cs with
  | nil => intro q v x hx; simpa using hx
  | cons c cs ih =>
    intro q v x hx
    obtain ⟨ns, id_, rel⟩ := c
    rw [List.foldl_cons]
    by_cases hc : (ns, id_) ∉ v ∧ rel ∈ K
    · rw [enqueueChild, if_pos hc]
      exact ih _ _ x (List.mem_append_left _ hx)
    · rw [enqueueChild, if_neg hc]
      exact ih _ _ x hx

theorem foldEnq_covers {K : List String} :
    ∀ (cs : List Edge) (q v : List Node) (ns id_ rel : String),
      (ns, id_, rel) ∈ cs → rel ∈ K →
      (ns, id_) ∈ (cs.foldl (enqueueChild K) (q, v)).2 := by
  intro cs
  induction cs with
  | nil => intro q v ns id_ rel h; simp at h
  | cons c cs ih =>
    intro q v ns id_ rel hmem hrel
    rw [List.foldl_cons]
    rcases List.mem_cons.mp hmem with hc | hc
    · subst hc
      by_cases hc : (ns, id_) ∉ v ∧ rel ∈ K
      · rw [enqueueChild, if_pos hc]
        exact foldEnq_visited_mono cs _ _ _ (List.mem_cons_self _ _)
      · rw [enqueueChild, if_neg hc]
        have hv : (ns, id_) ∈ v := by
          by_contra hA
          exact hc ⟨hA, hrel⟩
        exact foldEnq_visited_mono cs _ _ _ hv
    · obtain ⟨ns1, id1, rel1⟩ := c
      by_cases hcc : (ns1, id1) ∉ v ∧ rel1 ∈ K
      · rw [enqueueChild, if_pos hcc]
        exact ih _ _ _ _ _ hc hrel
      · rw [enqueueChild, if_neg hcc]
        exact ih _ _ _ _ _ hc hrel

theorem foldEnq_visited_src {K : List String} :
    ∀ (cs : List Edge) (q v : List Node) (x : Node),
      x ∈ (cs.foldl (enqueueChild K) (q, v)).2 →
      x ∈ v ∨ ∃ ns id_ rel, (ns, id_, rel) ∈ cs ∧ rel ∈ K ∧ x = (ns, id_) := by
  intro cs
  induction cs with
  | nil => intro q v x hx; left; simpa using hx
  | cons c cs ih =>
    intro q v x hx
    rw [List.foldl_cons] at hx
    obtain ⟨ns, id_, rel⟩ := c
    by_cases hc : (ns, id_) ∉ v ∧ rel ∈ K
    · rw [enqueueChild, if_pos hc] at hx
      rcases ih _ _ x hx with h | ⟨ns2, id2, rel2, hm, hr, he⟩
      · rcases List.mem_cons.mp h with h | h
        · exact Or.inr ⟨ns, id_, rel, List.mem_cons_self _ _, hc.2, h⟩
        · exact Or.inl h
      · exact Or.inr ⟨ns2, id2, rel2, List.mem_cons_of_mem _ hm, hr, he⟩
    · rw [enqueueChild, if_neg hc] at hx
      rcases ih _ _ x hx with h | ⟨ns2, id2, rel2, hm, hr, he⟩
      · exact Or.inl h
      · exact Or.inr ⟨ns2, id2, rel2, List.mem_cons_of_mem _ hm, hr, he⟩

theorem foldEnq_queue_src {K : List String} :
    ∀ (cs : List Edge) (q v : List Node) (x : Node),
      x ∈ (cs.foldl (enqueueChild K) (q, v)).1 →
      x ∈ q ∨ (x ∉ v ∧ x ∈ (cs.foldl (enqueueChild K) (q, v)).2) := by
  intro cs
  induction cs with
  | nil => intro q v x hx; left; simpa using hx
  | cons c cs ih =>
    intro q v x hx
    rw [List.foldl_cons] at hx ⊢
    obtain ⟨ns, id_, rel⟩ := c
    by_cases hc : (ns, id_) ∉ v ∧ rel ∈ K
    · rw [enqueueChild, if_pos hc] at hx ⊢
      rcases ih _ _ x hx with h | ⟨hnv, hv⟩
      · rcases List.mem_append.mp h with h | h
        · exact Or.inl h
        · have hx2 : x = (ns, id_) := by simpa using h
          subst hx2
          exact Or.inr ⟨hc.1,
            foldEnq_visited_mono cs _ _ _ (List.mem_cons_self _ _)⟩
      · refine Or.inr ⟨fun hxv => hnv (List.mem_cons_of_mem _ hxv), hv⟩
    · rw [enqueueChild, if_neg hc] at hx ⊢
      rcases ih _ _ x hx with h | ⟨hnv, hv⟩
      · exact Or.inl h
      · exact Or.inr ⟨hnv, hv⟩

theorem foldEnq_visited_to_queue {K : List String} :
    ∀ (cs : List Edge) (q v : List Node) (x : Node),
      x ∈ (cs.foldl (enqueueChild K) (q, v)).2 →
      x ∈ v ∨ x ∈ (cs.foldl (enqueueChild K) (q, v)).1 := by
  intro cs
  induction cs with
  | nil => intro q v x hx; left; simpa using hx
  | cons c cs ih =>
    intro q v x hx
    rw [List.foldl_cons] at hx ⊢
    obtain ⟨ns, id_, rel⟩ := c
    by_cases hc : (ns, id_) ∉ v ∧ rel ∈ K
    · rw [enqueueChild, if_pos hc] at hx ⊢
      rcases ih _ _ x hx with h | h
      · rcases List.mem_cons.mp h with h | h
        · subst h
          exact Or.inr (foldEnq_queue_mono cs _ _ _
            (List.mem_append_right _ (List.mem_singleton_self _)))
        · exact Or.inl h
      · exact Or.inr h
    · rw [enqueueChild, if_neg hc] at hx ⊢
      exact ih _ _ x hx

theorem foldEnq_nodup {K : List String} :
    ∀ (cs : List Edge) (q v : List Node), v.Nodup →
      (cs.foldl (enqueueChild K) (q, v)).2.Nodup := by
  intro cs
  induction cs with
  | nil => intro q v hv; simpa using hv
  | cons c cs ih =>
    intro q v hv
    rw [List.foldl_cons]
    obtain ⟨ns, id_, rel⟩ := c
    by_cases hc : (ns, id_) ∉ v ∧ rel ∈ K
    · rw [enqueueChild, if_pos hc]
      exact ih _ _ (List.nodup_cons.mpr ⟨hc.1, hv⟩)
    · rw [enqueueChild, if_neg hc]
      exact ih _ _ hv

theorem foldEnq_length {K : List String} :
    ∀ (cs : List Edge) (q v : List Node),
      (cs.foldl (enqueueChild K) (q, v)).2.length + q.length =
        v.length + (cs.foldl (enqueueChild K) (q, v)).1.length := by
  intro cs
  induction cs with
  | nil => intro q v; simp [Nat.add_comm]
  | cons c cs ih =>
    intro q v
    rw [List.foldl_cons]
    obtain ⟨ns, id_, rel⟩ := c
    by_cases hc : (ns, id_) ∉ v ∧ rel ∈ K
    · have hstep : enqueueChild K (q, v) (ns, id_, rel) =
          (q ++ [(ns, id_)], (ns, id_) :: v) := by
        rw [enqueueChild, if_pos hc]
      rw [hstep]
      have h := ih (q ++ [(ns, id_)]) ((ns, id_) :: v)
      simp only [List.length_append, List.length_cons, List.length_singleton,
        List.length_nil] at h ⊢
      omega
    · rw [enqueueChild, if_neg hc]
      exact ih _ _

theorem foldEnq_queue_nodup {K : List String} :
    ∀ (cs : List Edge) (q v : List Node), q.Nodup → (∀ x ∈ q, x ∈ v) →
      (cs.foldl (enqueueChild K) (q, v)).1.Nodup := by
  intro cs
  induction cs with
  | nil => intro q v hq _; simpa using hq
  | cons c cs ih =>
    intro q v hq hqv
    rw [List.foldl_cons]
    obtain ⟨ns, id_, rel⟩ := c
    by_cases hc : (ns, id_) ∉ v ∧ rel ∈ K
    · rw [enqueueChild, if_pos hc]
      refine ih _ _ ?_ ?_
      · refine List.Nodup.append hq (List.nodup_singleton _) ?_
        intro a ha hb
        have hb2 : a = (ns, id_) := by simpa using hb
        subst hb2
        exact hc.1 (hqv _ ha)
      · intro x hx
        rcases List.mem_append.mp hx with h | h
        · exact List.mem_cons_of_mem _ (hqv _ h)
        · have hx2 : x = (ns, id_) := by simpa using h
          subst hx2
          exact List.mem_cons_self _ _
    · rw [enqueueChild, if_neg hc]
      exact ih _ _ hq hqv

theorem traverseAux_sound (g : Node → List Edge) (K : List String) (s : Node) :
    ∀ (fuel : Nat) (queue visited : List Node),
      (∀ q ∈ queue, Reach g K s q) →
      ∀ x ∈ traverseAux g K fuel queue visited, Reach g K s x := by
  intro fuel
  induction fuel with
  | zero =>
    intro queue visited hq x hx
    cases queue with
    | nil => simp [traverseAux] at hx
    | cons n rest => simp [traverseAux] at hx
  | succ fuel ih =>
    intro queue visited hq x hx
    cases queue with
    | nil => simp [traverseAux] at hx
    | cons n rest =>
      simp only [traverseAux, List.mem_cons] at hx
      rcases hx with hx | hx
      · subst hx
        exact hq _ (List.mem_cons_self _ _)
      · refine ih _ _ ?_ x hx
        intro q hqmem
        rcases foldEnq_queue_src (g n) rest visited q hqmem with h | ⟨hnv, hv⟩
        · exact hq q (List.mem_cons_of_mem _ h)
        · rcases foldEnq_visited_src (g n) rest visited q hv with h | ⟨ns, id_, rel, hm, hr, he⟩
          · exact absurd h hnv
          · subst he
            exact Reach.tail (hq n (List.mem_cons_self _ _)) hm hr

theorem nodup_length_le_dedup {l U : List Node} (hn : l.Nodup)
    (hsub : ∀ x ∈ l, x ∈ U) : l.length ≤ U.dedup.length := by
  have h1 : l.toFinset.card = l.length := List.toFinset_card_of_nodup hn
  have h2 : l.toFinset ⊆ U.toFinset := by
    intro a ha
    rw [List.mem_toFinset] at ha ⊢
    exact hsub a ha
  calc l.length = l.toFinset.card := h1.symm
    _ ≤ U.toFinset.card := Finset.card_le_card h2
    _ = U.dedup.length := List.card_toFinset U

theorem traverseAux_main (g : Node → List Edge) (K : List String) (U : List Node)
    (hg : ∀ (x : Node) (ns id_ rel : String), (ns, id_, rel) ∈ g x → (ns, id_) ∈ U) :
    ∀ (fuel : Nat) (queue visited : List Node),
      (∀ q ∈ queue, q ∈ visited) →
      visited.Nodup →
      (∀ v ∈ visited, v ∈ U) →
      (∀ v ∈ visited, v ∉ queue → ∀ ns id_ rel, (ns, id_, rel) ∈ g v → rel ∈ K →
        (ns, id_) ∈ visited) →
      U.dedup.length - visited.length + queue.length ≤ fuel →
      (∀ q ∈ queue, q ∈ traverseAux g K fuel queue visited) ∧
      (∀ x : Node, (x ∈ visited ∨ x ∈ traverseAux g K fuel queue visited) →
        ∀ ns id_ rel, (ns, id_, rel) ∈ g x → rel ∈ K →
          ((ns, id_) ∈ visited ∨ (ns, id_) ∈ traverseAux g K fuel queue visited)) := by
  intro fuel
  induction fuel with
  | zero =>
    intro queue visited hqv hnd hU hcl hfuel
    cases queue with
    | nil =>
      constructor
      · intro q hq; simp at hq
      · intro x hx ns id_ rel he hr
        rcases hx with hx | hx
        · exact Or.inl (hcl x hx (by simp) ns id_ rel he hr)
        · simp [traverseAux] at hx
    | cons n rest =>
      exfalso
      simp only [List.length_cons] at hfuel
      omega
  | succ fuel ih =>
    intro queue visited hqv hnd hU hcl hfuel
    cases queue with
    | nil =>
      constructor
      · intro q hq; simp at hq
      · intro x hx ns id_ rel he hr
        rcases hx with hx | hx
        · exact Or.inl (hcl x hx (by simp) ns id_ rel he hr)
        · simp [traverseAux] at hx
    | cons n rest =>
      have hq1 : ∀ q ∈ ((g n).foldl (enqueueChild K) (rest, visited)).1,
          q ∈ ((g n).foldl (enqueueChild K) (rest, visited)).2 := by
        intro q hq
        rcases foldEnq_queue_src (g n) rest visited q hq with h | ⟨_, hv⟩
        · exact foldEnq_visited_mono (g n) rest visited q
            (hqv q (List.mem_cons_of_mem _ h))
        · exact hv
      have hnd1 : ((g n).foldl (enqueueChild K) (rest, visited)).2.Nodup :=
        foldEnq_nodup (g n) rest visited hnd
      have hU1 : ∀ v ∈ ((g n).foldl (enqueueChild K) (rest, visited)).2, v ∈ U := by
        intro v hv
        rcases foldEnq_visited_src (g n) rest visited v hv with h | ⟨ns, id_, rel, hm, _, he⟩
        · exact hU v h
        · subst he
          exact hg n ns id_ rel hm
      have hcl1 : ∀ v ∈ ((g n).foldl (enqueueChild K) (rest, visited)).2,
          v ∉ ((g n).foldl (enqueueChild K) (rest, visited)).1 →
          ∀ ns id_ rel, (ns, id_, rel) ∈ g v → rel ∈ K →
            (ns, id_) ∈ ((g n).foldl (enqueueChild K) (rest, visited)).2 := by
        intro v hv hvq ns id_ rel he hr
        have hvis : v ∈ visited := by
          rcases foldEnq_visited_to_queue (g n) rest visited v hv with h | h
          · exact h
          · exact absurd h hvq
        by_cases hvn : v = n
        · subst hvn
          exact foldEnq_covers _ rest visited ns id_ rel he hr
        · have hvrest : v ∉ rest := fun hmem =>
            hvq (foldEnq_queue_mono (g n) rest visited v hmem)
          have hvqueue : v ∉ n :: rest := by
            intro hmem
            rcases List.mem_cons.mp hmem with h | h
            · exact hvn h
            · exact hvrest h
          exact foldEnq_visited_mono (g n) rest visited _
            (hcl v hvis hvqueue ns id_ rel he hr)
      have hlen := @foldEnq_length K (g n) rest visited
      have hv_le : visited.length ≤ U.dedup.length := nodup_length_le_dedup hnd hU
      have hv1_le : ((g n).foldl (enqueueChild K) (rest, visited)).2.length ≤
          U.dedup.length := nodup_length_le_dedup hnd1 hU1
      have hfuel1 : U.dedup.length -
          ((g n).foldl (enqueueChild K) (rest, visited)).2.length +
          ((g n).foldl (enqueueChild K) (rest, visited)).1.length ≤ fuel := by
        simp only [List.length_cons] at hfuel
        omega
      obtain ⟨ihq, ihc⟩ := ih _ _ hq1 hnd1 hU1 hcl1 hfuel1
      have houtput : traverseAux g K (fuel + 1) (n :: rest) visited =
          n :: traverseAux g K fuel
            ((g n).foldl (enqueueChild K) (rest, visited)).1
            ((g n).foldl (enqueueChild K) (rest, visited)).2 := rfl
      constructor
      · intro q hq
        rw [houtput]
        rcases List.mem_cons.mp hq with h | h
        · exact h ▸ List.mem_cons_self _ _
        · exact List.mem_cons_of_mem _
            (ihq q (foldEnq_queue_mono (g n) rest visited q h))
      · intro x hx ns id_ rel he hr
        rw [houtput] at hx ⊢
        have hx1 : x ∈ ((g n).foldl (enqueueChild K) (rest, visited)).2 ∨
            x ∈ traverseAux g K fuel
              ((g n).foldl (enqueueChild K) (rest, visited)).1
              ((g n).foldl (enqueueChild K) (rest, visited)).2 := by
          rcases hx with hx | hx
          · exact Or.inl (foldEnq_visited_mono (g n) rest visited x hx)
          · rcases List.mem_cons.mp hx with h | h
            · subst h
              exact Or.inl (foldEnq_visited_mono _ rest visited x
                (hqv x (List.mem_cons_self _ _)))
            · exact Or.inr h
        rcases ihc x hx1 ns id_ rel he hr with h | h
        · rcases foldEnq_visited_to_queue (g n) rest visited _ h with h2 | h2
          · exact Or.inl h2
          · exact Or.inr (List.mem_cons_of_mem _ (ihq _ h2))
        · exact Or.inr (List.mem_cons_of_mem _ h)

theorem traverseAux_nodup (g : Node → List Edge) (K : List String) :
    ∀ (fuel : Nat) (queue visited : List Node),
      queue.Nodup → (∀ q ∈ queue, q ∈ visited) →
      (traverseAux g K fuel queue visited).Nodup ∧
      (∀ x ∈ traverseAux g K fuel queue visited, x ∈ queue ∨ x ∉ visited) := by
  intro fuel
  induction fuel with
  | zero =>
    intro queue visited _ _
    cases queue with
    | nil => exact ⟨by simp [traverseAux], by simp [traverseAux]⟩
    | cons n rest => exact ⟨by simp [traverseAux], by simp [traverseAux]⟩
  | succ fuel ih =>
    intro queue visited hqnd hqv
    cases queue with
    | nil => exact ⟨by simp [traverseAux], by simp [traverseAux]⟩
    | cons n rest =>
      have hrest_nd : rest.Nodup := (List.nodup_cons.mp hqnd).2
      have hn_rest : n ∉ rest := (List.nodup_cons.mp hqnd).1
      have hrest_v : ∀ q ∈ rest, q ∈ visited := fun q hq =>
        hqv q (List.mem_cons_of_mem _ hq)
      have hq1nd : ((g n).foldl (enqueueChild K) (rest, visited)).1.Nodup :=
        foldEnq_queue_nodup (g n) rest visited hrest_nd hrest_v
      have hq1v : ∀ q ∈ ((g n).foldl (enqueueChild K) (rest, visited)).1,
          q ∈ ((g n).foldl (enqueueChild K) (rest, visited)).2 := by
        intro q hq
        rcases foldEnq_queue_src (g n) rest visited q hq with h | ⟨_, hv⟩
        · exact foldEnq_visited_mono (g n) rest visited q (hrest_v q h)
        · exact hv
      obtain ⟨ihnd, ihsrc⟩ := ih _ _ hq1nd hq1v
      have houtput : traverseAux g K (fuel + 1) (n :: rest) visited =
          n :: traverseAux g K fuel
            ((g n).foldl (enqueueChild K) (rest, visited)).1
            ((g n).foldl (enqueueChild K) (rest, visited)).2 := rfl
      rw [houtput]
      have hnv : n ∈ visited := hqv n (List.mem_cons_self _ _)
      constructor
      · refine List.nodup_cons.mpr ⟨?_, ihnd⟩
        intro hmem
        rcases ihsrc n hmem with h | h
        · rcases foldEnq_queue_src (g n) rest visited n h with h2 | ⟨h2, _⟩
          · exact hn_rest h2
          · exact h2 hnv
        · exact h (foldEnq_visited_mono (g n) rest visited n hnv)
      · intro x hx
        rcases List.mem_cons.mp hx with h | h
        · exact Or.inl (h ▸ List.mem_cons_self _ _)
        · rcases ihsrc x h with h2 | h2
          · rcases foldEnq_queue_src (g n) rest visited x h2 with h3 | ⟨h3, _⟩
            · exact Or.inl (List.mem_cons_of_mem _ h3)
            · exact Or.inr h3
          · exact Or.inr fun hxv =>
              h2 (foldEnq_visited_mono (g n) rest visited x hxv)

theorem traverse_nodup (rels : List Relation) (g : Node → List Edge)
    (s : Node) (K : List String) : (traverse rels g s K).Nodup :=
  (traverseAux_nodup g K (rels.length + 1) [s] [s]
    (List.nodup_singleton s) (fun _ hq => hq)).1

/-- The traversal yields its source first. -/
theorem traverse_cons (rels : List Relation) (g : Node → List Edge)
    (s : Node) (K : List String) :
    ∃ t, traverse rels g s K = s :: t :=
  ⟨_, rfl⟩

/-- Membership in the output of `_traverse` is reachability along edges of
admitted relation type: BFS correctness. -/
theorem mem_traverse {rels : List Relation} {g : Node → List Edge}
    (f : Relation → Node)
    (hgf : ∀ (x : Node) (ns id_ rel : String),
      (ns, id_, rel) ∈ g x → (ns, id_) ∈ rels.map f)
    {s : Node} {K : List String} {x : Node} :
    x ∈ traverse rels g s K ↔ Reach g K s x := by
  constructor
  · intro hx
    refine traverseAux_sound g K s _ [s] [s] ?_ x hx
    intro q hq
    rw [List.mem_singleton] at hq
    subst hq
    exact Reach.refl _
  · intro hr
    have hg : ∀ (y : Node) (ns id_ rel : String), (ns, id_, rel) ∈ g y →
        (ns, id_) ∈ s :: rels.map f := fun y ns id_ rel h =>
      List.mem_cons_of_mem _ (hgf y ns id_ rel h)
    have hfuel : (s :: rels.map f).dedup.length - ([s] : List Node).length +
        ([s] : List Node).length ≤ rels.length + 1 := by
      have hD : (s :: rels.map f).dedup.length ≤ (s :: rels.map f).length :=
        (List.dedup_sublist _).length_le
      simp only [List.length_cons, List.length_map, List.length_singleton,
        List.length_nil] at hD ⊢
      omega
    obtain ⟨hqout, hclosed⟩ := traverseAux_main g K (s :: rels.map f) hg
      (rels.length + 1) [s] [s] (fun q hq => hq) (List.nodup_singleton s)
      (fun v hv => by
        rw [List.mem_singleton] at hv
        subst hv
        exact List.mem_cons_self _ _)
      (fun v hv hnv => absurd hv hnv) hfuel
    have hs_out : s ∈ traverseAux g K (rels.length + 1) [s] [s] :=
      hqout s (List.mem_singleton_self s)
    have main : ∀ y, Reach g K s y →
        (y ∈ ([s] : List Node) ∨ y ∈ traverseAux g K (rels.length + 1) [s] [s]) := by
      intro y hy
      induction hy with
      | refl => exact Or.inl (List.mem_singleton_self s)
      | tail _ he hrel ih => exact hclosed _ ih _ _ _ he hrel
    rcases main x hr with h | h
    · rw [List.mem_singleton] at h
      rw [h]
      exact hs_out
    · exact h

theorem mem_traverse_fwd {rels : List Relation} {s x : Node} {K : List String} :
    x ∈ traverse rels (fwdAdj rels) s K ↔ Reach (fwdAdj rels) K s x := by
  refine mem_traverse (fun r => (r.ns2, r.id2)) ?_
  intro y ns id_ rel h
  rcases mem_fwdAdj.mp h with ⟨r, hr, _, he⟩
  simp only [Prod.mk.injEq] at he
  exact List.mem_map.mpr ⟨r, hr, by simp [he.1, he.2.1]⟩

theorem mem_traverse_rev {rels : List Relation} {s x : Node} {K : List String} :
    x ∈ traverse rels (revAdj rels) s K ↔ Reach (revAdj rels) K s x := by
  refine mem_traverse (fun r => (r.ns1, r.id1)) ?_
  intro y ns id_ rel h
  rcases mem_revAdj.mp h with ⟨r, hr, _, he⟩
  simp only [Prod.mk.injEq] at he
  exact List.mem_map.mpr ⟨r, hr, by simp [he.1, he.2.1]⟩

theorem inLeftSet_iff {rels : List Relation} {x : Node} :
    inLeftSet rels x = true ↔ ∃ r ∈ rels, (r.ns1, r.id1) = x := by
  simp [inLeftSet, List.any_eq_true]

theorem inRightSet_iff {rels : List Relation} {x : Node} :
    inRightSet rels x = true ↔ ∃ r ∈ rels, (r.ns2, r.id2) = x := by
  simp [inRightSet, List.any_eq_true]

theorem mem_rootClasses {rels : List Relation} {x : Node} :
    x ∈ rootClasses rels ↔ inRightSet rels x = true ∧ inLeftSet rels x = false := by
  rw [rootClasses, List.mem_filter, List.mem_dedup]
  constructor
  · rintro ⟨hmem, hleft⟩
    refine ⟨?_, ?_⟩
    · rcases List.mem_map.mp hmem with ⟨r, hr, he⟩
      exact inRightSet_iff.mpr ⟨r, hr, he⟩
    · simpa using hleft
  · rintro ⟨hright, hleft⟩
    refine ⟨?_, ?_⟩
    · rcases inRightSet_iff.mp hright with ⟨r, hr, he⟩
      exact List.mem_map.mpr ⟨r, hr, he⟩
    · simpa using hleft

theorem mem_rootsOf {rels : List Relation} {x r : Node} :
    r ∈ rootsOf rels x ↔
      r ∈ rootClasses rels ∧ Reach (fwdAdj rels) allKinds x r := by
  rw [rootsOf, List.mem_filter]
  constructor
  · rintro ⟨hmem, hdec⟩
    rw [decide_eq_true_eq] at hdec
    exact ⟨hmem, reach_fwd_iff_rev.mpr (mem_traverse_rev.mp hdec)⟩
  · rintro ⟨hmem, hreach⟩
    refine ⟨hmem, ?_⟩
    rw [decide_eq_true_eq]
    exact mem_traverse_rev.mpr (reach_fwd_iff_rev.mp hreach)

theorem in_famplex_iff {rels : List Relation} {ns id_ : String} :
    in_famplex rels ns id_ = true ↔ rootsOf rels (ns, id_) ≠ [] := by
  rw [in_famplex, Bool.not_eq_true']
  rw [← Bool.not_eq_true]
  constructor
  · intro h hnil
    exact h (by simp [hnil])
  · intro h hempty
    exact h (List.isEmpty_iff.mp hempty)

/-- Every root above a reachable node is a root above the start of the path:
the key fact behind the common-root pre-filter of `_rel`. -/
theorem rootsOf_subset_of_reach {rels : List Relation} {x y : Node}
    {K : List String} (hK : K ⊆ allKinds)
    (hreach : Reach (fwdAdj rels) K x y) :
    ∀ r ∈ rootsOf rels y, r ∈ rootsOf rels x := by
  intro r hr
  rcases mem_rootsOf.mp hr with ⟨hroot, hyr⟩
  exact mem_rootsOf.mpr ⟨hroot, Reach.trans (Reach.mono hK hreach) hyr⟩

/-- Full characterization of `_rel`: true exactly when both terms are keys of
the root-class mapping, their root lists intersect, and the target is
reachable from the source along admitted edges. -/
theorem _rel_eq_true {rels : List Relation} {ns1 id1 ns2 id2 : String}
    {K : List String} :
    _rel rels ns1 id1 ns2 id2 K = true ↔
      rootsOf rels (ns1, id1) ≠ [] ∧ rootsOf rels (ns2, id2) ≠ [] ∧
      (∃ r, r ∈ rootsOf rels (ns1, id1) ∧ r ∈ rootsOf rels (ns2, id2)) ∧
      Reach (fwdAdj rels) K (ns1, id1) (ns2, id2) := by
  by_cases h1 : (rootsOf rels (ns1, id1)).isEmpty
  · have hnil : rootsOf rels (ns1, id1) = [] := List.isEmpty_iff.mp h1
    simp [_rel, h1, hnil]
  · by_cases h2 : (rootsOf rels (ns2, id2)).isEmpty
    · have hnil : rootsOf rels (ns2, id2) = [] := List.isEmpty_iff.mp h2
      simp [_rel, h2, hnil]
    · have hne1 : rootsOf rels (ns1, id1) ≠ [] := fun h =>
        h1 (by simp [h])
      have hne2 : rootsOf rels (ns2, id2) ≠ [] := fun h =>
        h2 (by simp [h])
      by_cases h3 : (rootsOf rels (ns1, id1)).any fun r =>
          decide (r ∈ rootsOf rels (ns2, id2))
      · have hex : ∃ r, r ∈ rootsOf rels (ns1, id1) ∧
            r ∈ rootsOf rels (ns2, id2) := by
          rcases List.any_eq_true.mp h3 with ⟨r, hr, hdec⟩
          exact ⟨r, hr, of_decide_eq_true hdec⟩
        simp [_rel, h1, h2, h3, hne1, hne2, hex, mem_traverse_fwd]
      · have hnex : ¬∃ r, r ∈ rootsOf rels (ns1, id1) ∧
            r ∈ rootsOf rels (ns2, id2) := by
          rintro ⟨r, hr1, hr2⟩
          exact h3 (List.any_eq_true.mpr ⟨r, hr1, decide_eq_true hr2⟩)
        simp [_rel, h1, h2, h3, hne1, hne2, hnex]

theorem mem_traverse_drop_fwd {rels : List Relation} {s x : Node}
    {K : List String} :
    x ∈ (traverse rels (fwdAdj rels) s K).drop 1 ↔
      Reach (fwdAdj rels) K s x ∧ x ≠ s := by
  obtain ⟨t, ht⟩ := traverse_cons rels (fwdAdj rels) s K
  have hnd := traverse_nodup rels (fwdAdj rels) s K
  rw [ht] at hnd
  rw [ht]
  simp only [List.drop_succ_cons, List.drop_zero]
  constructor
  · intro hx
    have hmem : x ∈ traverse rels (fwdAdj rels) s K := by
      rw [ht]
      exact List.mem_cons_of_mem _ hx
    refine ⟨mem_traverse_fwd.mp hmem, ?_⟩
    rintro rfl
    exact (List.nodup_cons.mp hnd).1 hx
  · rintro ⟨hreach, hne⟩
    have hmem : x ∈ traverse rels (fwdAdj rels) s K := mem_traverse_fwd.mpr hreach
    rw [ht] at hmem
    rcases List.mem_cons.mp hmem with h | h
    · exact absurd h hne
    · exact h

theorem mem_traverse_drop_rev {rels : List Relation} {s x : Node}
    {K : List String} :
    x ∈ (traverse rels (revAdj rels) s K).drop 1 ↔
      Reach (revAdj rels) K s x ∧ x ≠ s := by
  obtain ⟨t, ht⟩ := traverse_cons rels (revAdj rels) s K
  have hnd := traverse_nodup rels (revAdj rels) s K
  rw [ht] at hnd
  rw [ht]
  simp only [List.drop_succ_cons, List.drop_zero]
  constructor
  · intro hx
    have hmem : x ∈ traverse rels (revAdj rels) s K := by
      rw [ht]
      exact List.mem_cons_of_mem _ hx
    refine ⟨mem_traverse_rev.mp hmem, ?_⟩
    rintro rfl
    exact (List.nodup_cons.mp hnd).1 hx
  · rintro ⟨hreach, hne⟩
    have hmem : x ∈ traverse rels (revAdj rels) s K := mem_traverse_rev.mpr hreach
    rw [ht] at hmem
    rcases List.mem_cons.mp hmem with h | h
    · exact absurd h hne
    · exact h

theorem fwdAdj_eq_nil_of_not_left {rels : List Relation} {x : Node}
    (h : inLeftSet rels x = false) : fwdAdj rels x = [] := by
  rw [List.eq_nil_iff_forall_not_mem]
  intro e he
  rcases mem_fwdAdj.mp he with ⟨r, hr, hn, _⟩
  have : inLeftSet rels x = true := inLeftSet_iff.mpr ⟨r, hr, hn⟩
  simp [this] at h

/-- A path out of a node either stays put or starts with an edge of the node. -/
theorem reach_first_step {g : Node → List Edge} {K : List String} {a b : Node}
    (h : Reach g K a b) :
    a = b ∨ ∃ ns id_ rel, (ns, id_, rel) ∈ g a ∧ rel ∈ K ∧
      Reach g K (ns, id_) b := by
  induction h with
  | refl => exact Or.inl rfl
  | tail hab he hr ih =>
    rcases ih with heq | ⟨ns1, id1, rel1, he1, hr1, hreach1⟩
    · subst heq
      exact Or.inr ⟨_, _, _, he, hr, Reach.refl _⟩
    · exact Or.inr ⟨ns1, id1, rel1, he1, hr1, Reach.tail hreach1 he hr⟩

/-- A term with no outgoing edge reaches only itself. -/
theorem reach_self_of_not_left {rels : List Relation} {K : List String}
    {x y : Node} (hleft : inLeftSet rels x = false)
    (h : Reach (fwdAdj rels) K x y) : x = y := by
  rcases reach_first_step h with heq | ⟨ns, id_, rel, he, _, _⟩
  · exact heq
  · rw [fwdAdj_eq_nil_of_not_left hleft] at he
    simp at he

/-- A term appearing in no relation row has an empty root list. -/
theorem rootsOf_eq_nil_of_isolated {rels : List Relation} {x : Node}
    (hleft : inLeftSet rels x = false) (hright : inRightSet rels x = false) :
    rootsOf rels x = [] := by
  rw [List.eq_nil_iff_forall_not_mem]
  intro r hr
  rcases mem_rootsOf.mp hr with ⟨hroot, hreach⟩
  have heq : x = r := reach_self_of_not_left hleft hreach
  subst heq
  have : inRightSet rels x = true := (mem_rootClasses.mp hroot).1
  simp [this] at hright

theorem filter_eq_singleton {p : Node → Bool} {l : List Node} {x : Node}
    (hnd : l.Nodup) (hx : x ∈ l) (hp : p x = true)
    (hother : ∀ y ∈ l, p y = true → y = x) : l.filter p = [x] := by
  induction l with
  | nil => simp at hx
  | cons h t ih =>
    have hnd_t : t.Nodup := (List.nodup_cons.mp hnd).2
    have hht : h ∉ t := (List.nodup_cons.mp hnd).1
    by_cases hph : p h = true
    · have hhx : h = x := hother h (List.mem_cons_self _ _) hph
      subst hhx
      rw [List.filter_cons_of_pos hph]
      have hfilter_nil : t.filter p = [] := by
        rw [List.filter_eq_nil_iff]
        intro y hy hpy
        have : y = h := hother y (List.mem_cons_of_mem _ hy) hpy
        subst this
        exact hht hy
      rw [hfilter_nil]
    · rw [List.filter_cons_of_neg (by simpa using hph)]
      have hxt : x ∈ t := by
        rcases List.mem_cons.mp hx with h2 | h2
        · subst h2
          exact absurd hp hph
        · exact h2
      exact ih hnd_t hxt fun y hy hpy =>
        hother y (List.mem_cons_of_mem _ hy) hpy

theorem rootClasses_nodup (rels : List Relation) : (rootClasses rels).Nodup :=
  (List.nodup_dedup _).filter _

/-- A root (target only, never source) has exactly itself as root list. -/
theorem rootsOf_self_of_root {rels : List Relation} {x : Node}
    (hright : inRightSet rels x = true) (hleft : inLeftSet rels x = false) :
    rootsOf rels x = [x] := by
  have hx_root : x ∈ rootClasses rels := mem_rootClasses.mpr ⟨hright, hleft⟩
  rw [rootsOf]
  refine filter_eq_singleton (rootClasses_nodup rels) hx_root ?_ ?_
  · rw [decide_eq_true_eq]
    exact mem_traverse_rev.mpr (Reach.refl _)
  · intro y hy hpy
    rw [decide_eq_true_eq] at hpy
    have hreach : Reach (fwdAdj rels) allKinds x y :=
      reach_fwd_iff_rev.mpr (mem_traverse_rev.mp hpy)
    exact (reach_self_of_not_left hleft hreach).symm

theorem isa_subset_allKinds : (["isa"] : List String) ⊆ allKinds := by
  intro a ha
  rw [List.mem_singleton] at ha
  subst ha
  rw [allKinds]
  exact List.mem_cons_self _ _

theorem partof_subset_allKinds : (["partof"] : List String) ⊆ allKinds := by
  intro a ha
  rw [List.mem_singleton] at ha
  subst ha
  rw [allKinds]
  exact List.mem_cons_of_mem _ (List.mem_cons_self _ _)

theorem in_famplex_false_iff {rels : List Relation} {ns id_ : String} :
    in_famplex rels ns id_ = false ↔ rootsOf rels (ns, id_) = [] := by
  rw [← Bool.not_eq_true, in_famplex_iff, not_ne_iff]

theorem _rel_false_of_absent {rels : List Relation} {ns1 id1 ns2 id2 : String}
    {K : List String}
    (h : rootsOf rels (ns1, id1) = [] ∨ rootsOf rels (ns2, id2) = []) :
    _rel rels ns1 id1 ns2 id2 K = false := by
  rw [Bool.eq_false_iff]
  intro htrue
  rcases _rel_eq_true.mp htrue with ⟨hne1, hne2, _, _⟩
  rcases h with h | h
  · exact hne1 h
  · exact hne2 h

theorem _rel_self_of_mapped {rels : List Relation} {ns id_ : String}
    {K : List String} (h : rootsOf rels (ns, id_) ≠ []) :
    _rel rels ns id_ ns id_ K = true := by
  rcases List.exists_mem_of_ne_nil _ h with ⟨r, hr⟩
  exact _rel_eq_true.mpr ⟨h, h, ⟨r, hr, hr⟩, Reach.refl _⟩

theorem mem_childFilter {rels : List Relation} {K : List String}
    {ns id_ : String} {c : Node} :
    c ∈ ((revAdj rels (ns, id_)).filterMap fun e =>
      match e with
      | (ns2, id2, rel) => if rel ∈ K then some (ns2, id2) else none) ↔
    ∃ r ∈ rels, (r.ns2, r.id2) = (ns, id_) ∧ (r.ns1, r.id1) = c ∧ r.rel ∈ K := by
  rw [List.mem_filterMap]
  constructor
  · rintro ⟨e, he, hfe⟩
    obtain ⟨ens, eid, erel⟩ := e
    have hfe2 : (if erel ∈ K then some (ens, eid) else none) = some c := hfe
    by_cases hk : erel ∈ K
    · rw [if_pos hk] at hfe2
      rcases mem_revAdj.mp he with ⟨r, hr, htar, hee⟩
      simp only [Prod.mk.injEq] at hee
      rcases Option.some.inj hfe2 with hc
      refine ⟨r, hr, htar, ?_, ?_⟩
      · rw [← hc]
        simp [hee.1, hee.2.1]
      · rw [← hee.2.2]
        exact hk
    · rw [if_neg hk] at hfe2
      simp at hfe2
  · rintro ⟨r, hr, htar, hc, hrel⟩
    refine ⟨(r.ns1, r.id1, r.rel), mem_revAdj.mpr ⟨r, hr, htar, rfl⟩, ?_⟩
    show (if r.rel ∈ K then some (r.ns1, r.id1) else none) = some c
    rw [if_pos hrel, hc]

theorem mem_equivFilter {eqRows : List (String × String × String)}
    {fid : String} {p : String × String} :
    p ∈ (eqRows.filterMap fun row =>
      match row with
      | (ns, id_, fid2) => if fid2 = fid then some (ns, id_) else none) ↔
    (p.1, p.2, fid) ∈ eqRows := by
  rw [List.mem_filterMap]
  constructor
  · rintro ⟨row, hrow, hf⟩
    obtain ⟨rns, rid, rfid⟩ := row
    have hf2 : (if rfid = fid then some (rns, rid) else none) = some p := hf
    by_cases hk : rfid = fid
    · rw [if_pos hk] at hf2
      rcases Option.some.inj hf2 with hp
      rw [← hp]
      rw [hk] at hrow
      exact hrow
    · rw [if_neg hk] at hf2
      simp at hf2
  · intro hrow
    refine ⟨(p.1, p.2, fid), hrow, ?_⟩
    show (if fid = fid then some (p.1, p.2) else none) = some p
    rw [if_pos rfl]

theorem mem_enumerateFrom :
    ∀ (rows : List (List String)) (i0 i : Nat) (row : List String),
      (i, row) ∈ enumerateFrom i0 rows ↔
        ∃ k, i = i0 + k ∧ rows.get? k = some row := by
  intro rows
  induction rows with
  | nil =>
    intro i0 i row
    simp [enumerateFrom]
  | cons r rs ih =>
    intro i0 i row
    rw [enumerateFrom, List.mem_cons]
    constructor
    · rintro (h | h)
      · rcases Prod.mk.injEq .. ▸ h with h2
        simp only [Prod.mk.injEq] at h2
        exact ⟨0, by omega, by simp [h2.2]⟩
      · rcases (ih (i0 + 1) i row).mp h with ⟨k, hk, hget⟩
        exact ⟨k + 1, by omega, by simpa using hget⟩
    · rintro ⟨k, hk, hget⟩
      cases k with
      | zero =>
        left
        simp only [List.get?] at hget
        rcases Option.some.inj hget with h2
        simp [hk, h2]
      | succ k =>
        right
        refine (ih (i0 + 1) i row).mpr ⟨k, by omega, ?_⟩
        simpa using hget

theorem mem_find_invalid_rows {rows : List (List String)} {n i l : Nat} :
    (i, l) ∈ find_invalid_rows rows n ↔
      ∃ row, rows.get? i = some row ∧ row.length = l ∧ l ≠ n := by
  rw [find_invalid_rows, List.mem_filterMap]
  constructor
  · rintro ⟨⟨pi, prow⟩, hp, hf⟩
    have hf2 : (if prow.length ≠ n then some (pi, prow.length) else none) =
        some (i, l) := hf
    by_cases hk : prow.length ≠ n
    · rw [if_pos hk] at hf2
      rcases Option.some.inj hf2 with h2
      simp only [Prod.mk.injEq] at h2
      rcases (mem_enumerateFrom rows 0 pi prow).mp hp with ⟨k, hik, hget⟩
      refine ⟨prow, ?_, h2.2, ?_⟩
      · have hki : k = i := by omega
        rw [← hki]
        exact hget
      · rw [← h2.2]
        exact hk
    · rw [if_neg hk] at hf2
      simp at hf2
  · rintro ⟨row, hget, hlen, hne⟩
    refine ⟨(i, row), (mem_enumerateFrom rows 0 i row).mpr ⟨i, by omega, hget⟩, ?_⟩
    show (if row.length ≠ n then some (i, row.length) else none) = some (i, l)
    have hk : row.length ≠ n := by omega
    rw [if_pos hk, hlen]

/-- C1 (counterexample): on the mixed chain A isa B partof C, `refinement_of`
holds of (A, C) but neither `isa` nor `partof` does: the claimed converse
direction `refinement_of ⇒ isa ∨ partof` fails on the code, because the
witnessing path mixes the two edge kinds. -/
theorem refinement_mixed_chain_counterexample :
    refinement_of relsChain "FPLX" "A" "FPLX" "C" = true ∧
    isa relsChain "FPLX" "A" "FPLX" "C" = false ∧
    partof relsChain "FPLX" "A" "FPLX" "C" = false := by
  decide

/-- C1 (amended): `isa(A,B)` or `partof(A,B)` implies `refinement_of(A,B)`;
the converse direction does not hold in general. -/
theorem isa_or_partof_implies_refinement :
    ∀ (rels : List Relation) (ns1 id1 ns2 id2 : String),
      isa rels ns1 id1 ns2 id2 = true ∨ partof rels ns1 id1 ns2 id2 = true →
      refinement_of rels ns1 id1 ns2 id2 = true := by
  intro rels ns1 id1 ns2 id2 h
  rcases h with h | h
  · rcases _rel_eq_true.mp h with ⟨h1, h2, h3, h4⟩
    exact _rel_eq_true.mpr ⟨h1, h2, h3, Reach.mono isa_subset_allKinds h4⟩
  · rcases _rel_eq_true.mp h with ⟨h1, h2, h3, h4⟩
    exact _rel_eq_true.mpr ⟨h1, h2, h3, Reach.mono partof_subset_allKinds h4⟩

/-- C1 (witness): a concrete isa edge for which the implication fires. -/
theorem isa_or_partof_implies_refinement_witness :
    isa relsSingle "FPLX" "A" "FPLX" "B" = true ∧
    refinement_of relsSingle "FPLX" "A" "FPLX" "B" = true :=
  ⟨by decide, isa_or_partof_implies_refinement relsSingle "FPLX" "A" "FPLX" "B"
    (Or.inl (by decide))⟩

/-- C2: after construction from any relation list, a term is in the computed
root set exactly when it appears as a relation target (right set) and never
as a relation source (left set). -/
theorem root_classes_right_minus_left :
    ∀ (rels : List Relation) (x : Node),
      x ∈ rootClasses rels ↔
        inRightSet rels x = true ∧ inLeftSet rels x = false :=
  fun _ _ => mem_rootClasses

/-- C2 (witness): in the single-edge graph, B is a root. -/
theorem root_classes_right_minus_left_witness :
    ("FPLX", "B") ∈ rootClasses relsSingle :=
  (root_classes_right_minus_left relsSingle ("FPLX", "B")).mpr
    ⟨by decide, by decide⟩

/-- C3: for terms of the ontology and any kind set K ⊆ {isa, partof}, B lies
among the ancestral terms of A exactly when A lies among the descendant terms
of B. -/
theorem ancestral_descendant_inverse :
    ∀ (rels : List Relation) (a b : Node) (K : List String),
      K ⊆ allKinds →
      in_famplex rels a.1 a.2 = true → in_famplex rels b.1 b.2 = true →
      ∃ la lb, ancestral_terms rels a.1 a.2 K = Except.ok la ∧
        descendant_terms rels b.1 b.2 K = Except.ok lb ∧
        (b ∈ la ↔ a ∈ lb) := by
  intro rels a b K _ hA hB
  refine ⟨(traverse rels (fwdAdj rels) (a.1, a.2) K).drop 1,
          (traverse rels (revAdj rels) (b.1, b.2) K).drop 1, ?_, ?_, ?_⟩
  · rw [ancestral_terms, if_pos hA]
  · rw [descendant_terms, if_pos hB]
  · rw [mem_traverse_drop_fwd, mem_traverse_drop_rev]
    constructor
    · rintro ⟨hr, hne⟩
      exact ⟨reach_fwd_iff_rev.mp hr, fun he => hne he.symm⟩
    · rintro ⟨hr, hne⟩
      exact ⟨reach_fwd_iff_rev.mpr hr, fun he => hne he.symm⟩

/-- C3 (witness): the inverse law instantiated on the single-edge graph. -/
theorem ancestral_descendant_inverse_witness :
    in_famplex relsSingle "FPLX" "A" = true ∧
    ∃ la lb, ancestral_terms relsSingle "FPLX" "A" ["isa"] = Except.ok la ∧
      descendant_terms relsSingle "FPLX" "B" ["isa"] = Except.ok lb ∧
      (("FPLX", "B") ∈ la ↔ ("FPLX", "A") ∈ lb) :=
  ⟨by decide, ancestral_descendant_inverse relsSingle ("FPLX", "A")
    ("FPLX", "B") ["isa"] isa_subset_allKinds (by decide) (by decide)⟩

/-- C4 (counterexample): for a pair built from a term that is absent from the
root-class mapping, the pre-filtered test `_rel` answers False while the
unconditional full forward BFS reaches the (identical) second term and
answers True: the pre-filter does change the answer on such pairs. -/
theorem prefilter_full_bfs_counterexample :
    _rel relsSingle "FPLX" "X" "FPLX" "X" allKinds = false ∧
    full_traversal_check relsSingle ("FPLX", "X") ("FPLX", "X") allKinds = true := by
  decide

/-- C4 (amended): for terms that are both keys of the root-class mapping and
any requested kind set K ⊆ {isa, partof}, the relatedness test with the
common-root pre-filter returns the same boolean as the unconditional full
forward BFS check. -/
theorem prefilter_preserves_full_bfs :
    ∀ (rels : List Relation) (ns1 id1 ns2 id2 : String) (K : List String),
      K ⊆ allKinds →
      in_famplex rels ns1 id1 = true → in_famplex rels ns2 id2 = true →
      _rel rels ns1 id1 ns2 id2 K =
        full_traversal_check rels (ns1, id1) (ns2, id2) K := by
  intro rels ns1 id1 ns2 id2 K hK h1 h2
  have hne1 := in_famplex_iff.mp h1
  have hne2 := in_famplex_iff.mp h2
  by_cases hfull : (ns2, id2) ∈ traverse rels (fwdAdj rels) (ns1, id1) K
  · have hreach := mem_traverse_fwd.mp hfull
    have hrel : _rel rels ns1 id1 ns2 id2 K = true := by
      rcases List.exists_mem_of_ne_nil _ hne2 with ⟨r, hr⟩
      exact _rel_eq_true.mpr ⟨hne1, hne2,
        ⟨r, rootsOf_subset_of_reach hK hreach r hr, hr⟩, hreach⟩
    have hfullb : full_traversal_check rels (ns1, id1) (ns2, id2) K = true := by
      rw [full_traversal_check]
      exact decide_eq_true hfull
    rw [hrel, hfullb]
  · have hrel : _rel rels ns1 id1 ns2 id2 K = false := by
      rw [Bool.eq_false_iff]
      intro htrue
      rcases _rel_eq_true.mp htrue with ⟨_, _, _, hreach⟩
      exact hfull (mem_traverse_fwd.mpr hreach)
    have hfullb : full_traversal_check rels (ns1, id1) (ns2, id2) K = false := by
      rw [full_traversal_check, decide_eq_false_iff_not]
      exact hfull
    rw [hrel, hfullb]

/-- C4 (witness): agreement of the two tests on a concrete in-ontology pair. -/
theorem prefilter_preserves_full_bfs_witness :
    in_famplex relsSingle "FPLX" "A" = true ∧
    _rel relsSingle "FPLX" "A" "FPLX" "B" allKinds =
      full_traversal_check relsSingle ("FPLX", "A") ("FPLX", "B") allKinds :=
  ⟨by decide, prefilter_preserves_full_bfs relsSingle "FPLX" "A" "FPLX" "B"
    allKinds (fun _ ha => ha) (by decide) (by decide)⟩

/-- C5: when either input term is absent from the ontology (not a key of the
root-class mapping, i.e. `in_famplex` is False), `isa`, `partof` and
`refinement_of` all return False; they are Bool-valued total functions here,
mirroring that the Python code raises nothing on this path. -/
theorem absent_term_relations_false :
    ∀ (rels : List Relation) (ns1 id1 ns2 id2 : String),
      in_famplex rels ns1 id1 = false ∨ in_famplex rels ns2 id2 = false →
      isa rels ns1 id1 ns2 id2 = false ∧
      partof rels ns1 id1 ns2 id2 = false ∧
      refinement_of rels ns1 id1 ns2 id2 = false := by
  intro rels ns1 id1 ns2 id2 h
  have h2 : rootsOf rels (ns1, id1) = [] ∨ rootsOf rels (ns2, id2) = [] := by
    rcases h with h | h
    · exact Or.inl (in_famplex_false_iff.mp h)
    · exact Or.inr (in_famplex_false_iff.mp h)
  exact ⟨_rel_false_of_absent h2, _rel_false_of_absent h2,
    _rel_false_of_absent h2⟩

/-- C5 (witness): the spec's concrete scenario, `isa("HGNC","GENE","FPLX","MEK")`
is False when HGNC:GENE is not a recognized term. -/
theorem absent_term_relations_false_witness :
    in_famplex relsSingle "HGNC" "GENE" = false ∧
    isa relsSingle "HGNC" "GENE" "FPLX" "MEK" = false :=
  ⟨by decide, (absent_term_relations_false relsSingle "HGNC" "GENE" "FPLX" "MEK"
    (Or.inl (by decide))).1⟩

/-- C6 (counterexample): on the two-node isa cycle, A is not a term of the
ontology in the code's sense (`in_famplex` is False: A reaches no root), yet
`child_terms` does not raise — it answers with A's direct child.  So raising
is not equivalent to absence from the ontology. -/
theorem child_terms_cycle_counterexample :
    in_famplex relsCycle "FPLX" "A" = false ∧
    child_terms relsCycle "FPLX" "A" allKinds = Except.ok [("FPLX", "B")] :=
  ⟨by decide, rfl⟩

/-- C6 (amended): `child_terms` raises NotInOntology exactly when the term
appears in no relation row (it is a key of neither adjacency map); for every
term appearing in at least one row it returns, without raising, the (possibly
empty) list of direct children connected through a relation kind of the
filter. -/
theorem child_terms_error_iff_no_edge :
    ∀ (rels : List Relation) (ns id_ : String) (K : List String),
      (child_terms rels ns id_ K = Except.error NotInOntologyMsg ↔
        inLeftSet rels (ns, id_) = false ∧ inRightSet rels (ns, id_) = false) ∧
      ((inLeftSet rels (ns, id_) = true ∨ inRightSet rels (ns, id_) = true) →
        ∃ l, child_terms rels ns id_ K = Except.ok l ∧
          ∀ c : Node, c ∈ l ↔ ∃ r ∈ rels, (r.ns2, r.id2) = (ns, id_) ∧
            (r.ns1, r.id1) = c ∧ r.rel ∈ K) := by
  intro rels ns id_ K
  by_cases hr : inRightSet rels (ns, id_) = true
  · refine ⟨by simp [child_terms, hr], fun _ => ⟨_, ?_, fun c => mem_childFilter⟩⟩
    rw [child_terms, if_pos hr]
  · have hrf : inRightSet rels (ns, id_) = false := by
      cases hb : inRightSet rels (ns, id_)
      · rfl
      · exact absurd hb hr
    by_cases hl : inLeftSet rels (ns, id_) = true
    · refine ⟨by simp [child_terms, hrf, hl], fun _ => ⟨[], ?_, ?_⟩⟩
      · rw [child_terms, if_neg hr, if_pos hl]
      · intro c
        simp only [List.not_mem_nil, false_iff]
        rintro ⟨r, hrr, htar, _, _⟩
        have : inRightSet rels (ns, id_) = true := inRightSet_iff.mpr ⟨r, hrr, htar⟩
        rw [this] at hrf
        simp at hrf
    · have hlf : inLeftSet rels (ns, id_) = false := by
        cases hb : inLeftSet rels (ns, id_)
        · rfl
        · exact absurd hb hl
      refine ⟨by simp [child_terms, hrf, hlf], ?_⟩
      rintro (h | h)
      · exact absurd h hl
      · exact absurd h hr

/-- C6 (witness): the ESR family returns its two gene children. -/
theorem child_terms_error_iff_no_edge_witness :
    ∃ l, child_terms relsESR "FPLX" "ESR" allKinds = Except.ok l ∧
      ∀ c : Node, c ∈ l ↔ ∃ r ∈ relsESR, (r.ns2, r.id2) = ("FPLX", "ESR") ∧
        (r.ns1, r.id1) = c ∧ r.rel ∈ allKinds :=
  (child_terms_error_iff_no_edge relsESR "FPLX" "ESR" allKinds).2
    (Or.inr (by decide))

/-- C7 (counterexample): graph construction never reads the entity list; an
id declared there with no relation edge is no key of the root-class mapping,
`in_famplex` answers False (the claim says True) and `root_terms` raises. -/
theorem isolated_entity_counterexample :
    ("Loner" : String) ∈ ["Loner"] ∧
    in_famplex relsSingle "FPLX" "Loner" = false ∧
    root_terms relsSingle "FPLX" "Loner" = Except.error NotInOntologyMsg :=
  ⟨by decide, by decide, rfl⟩

/-- C7 (amended): an id declared in the entity list that has no incoming and
no outgoing relation edge is NOT a member of the constructed ontology:
`in_famplex` returns False for it and `root_terms` raises NotInOntology (the
construction only reads the relation list).  A term that appears as a
relation target but never as a source is a member and is its own root:
`root_terms` returns the singleton list of the term itself. -/
theorem entity_membership_and_roots :
    ∀ (rels : List Relation) (ents : List String) (e : String) (x : Node),
      (e ∈ ents → inLeftSet rels ("FPLX", e) = false →
        inRightSet rels ("FPLX", e) = false →
        in_famplex rels "FPLX" e = false ∧
        root_terms rels "FPLX" e = Except.error NotInOntologyMsg) ∧
      (inRightSet rels x = true → inLeftSet rels x = false →
        in_famplex rels x.1 x.2 = true ∧
        root_terms rels x.1 x.2 = Except.ok [x]) := by
  intro rels ents e x
  constructor
  · intro _ hleft hright
    have hnil : rootsOf rels ("FPLX", e) = [] :=
      rootsOf_eq_nil_of_isolated hleft hright
    refine ⟨in_famplex_false_iff.mpr hnil, ?_⟩
    simp [root_terms, hnil]
  · intro hright hleft
    have hself : rootsOf rels (x.1, x.2) = [x] :=
      rootsOf_self_of_root hright hleft
    refine ⟨in_famplex_iff.mpr ?_, ?_⟩
    · rw [hself]
      exact List.cons_ne_nil x []
    · simp [root_terms, hself]

/-- C7 (witness): B is target-only in the single-edge graph and its own root. -/
theorem entity_membership_and_roots_witness :
    in_famplex relsSingle "FPLX" "B" = true ∧
    root_terms relsSingle "FPLX" "B" = Except.ok [("FPLX", "B")] :=
  (entity_membership_and_roots relsSingle ["Loner"] "Loner" ("FPLX", "B")).2
    (by decide) (by decide)

/-- C8 (counterexample): a 3-column row does not make `load_relations` fail —
the row is returned unchanged; no MalformedRowError exists in the code. -/
theorem load_relations_no_failure_counterexample :
    load_relations [["a", "b", "c"]] = Except.ok [["a", "b", "c"]] := rfl

/-- C8 (amended): `load_relations` performs no per-row validation and returns
every row unchanged without failing; the column-count check lives in the
separate `find_invalid_rows`, which reports (index, observed length) for
exactly the rows whose length differs from the expected one, and aborts
nothing. -/
theorem malformed_rows_reported_not_raised :
    ∀ (rows : List (List String)) (n i l : Nat),
      load_relations rows = Except.ok rows ∧
      ((i, l) ∈ find_invalid_rows rows n ↔
        ∃ row, rows.get? i = some row ∧ row.length = l ∧ l ≠ n) :=
  fun _ _ _ _ => ⟨rfl, mem_find_invalid_rows⟩

/-- C8 (witness): the malformed 3-column row is reported at index 0. -/
theorem malformed_rows_reported_not_raised_witness :
    (0, 3) ∈ find_invalid_rows [["a", "b", "c"]] 5 :=
  (malformed_rows_reported_not_raised [["a", "b", "c"]] 5 0 3).2.mpr
    ⟨["a", "b", "c"], rfl, rfl, by decide⟩

/-- C9 (counterexample): with no equivalence rows, B is a recognized ontology
term (`in_famplex` True) yet `equivalences` raises: raising does not coincide
with absence from the ontology, and an empty list is never returned for a
recognized term without equivalences. -/
theorem equivalences_valid_term_raises_counterexample :
    in_famplex relsSingle "FPLX" "B" = true ∧
    equivalences ([] : List (String × String × String)) "B" =
      Except.error "Input ID does not exist in FamPlex." :=
  ⟨by decide, rfl⟩

/-- C9 (amended): `equivalences(fplx_id)` raises exactly when no equivalence
row carries `fplx_id` as its FamPlex id; otherwise it returns, without
raising, the nonempty list of (namespace, id) pairs of exactly those rows —
independently of the id's membership in the ontology graph. -/
theorem equivalences_error_iff_no_row :
    ∀ (eqRows : List (String × String × String)) (fid : String),
      (equivalences eqRows fid =
          Except.error "Input ID does not exist in FamPlex." ↔
        ∀ row ∈ eqRows, row.2.2 ≠ fid) ∧
      ∀ l, equivalences eqRows fid = Except.ok l →
        l ≠ [] ∧ ∀ p : String × String, p ∈ l ↔ (p.1, p.2, fid) ∈ eqRows := by
  intro eqRows fid
  by_cases hemp : (eqRows.filterMap fun row =>
      match row with
      | (ns, id_, fid2) => if fid2 = fid then some (ns, id_) else none).isEmpty
  · have heq : equivalences eqRows fid =
        Except.error "Input ID does not exist in FamPlex." := by
      simp only [equivalences, hemp, if_true]
    have hnil := List.isEmpty_iff.mp hemp
    constructor
    · refine ⟨fun _ row hrow hfid => ?_, fun _ => heq⟩
      have hp : ((row.1, row.2.1) : String × String) ∈ eqRows.filterMap fun row =>
          match row with
          | (ns, id_, fid2) => if fid2 = fid then some (ns, id_) else none := by
        refine mem_equivFilter.mpr ?_
        rw [← hfid]
        exact hrow
      rw [hnil] at hp
      simp at hp
    · intro l hl
      rw [heq] at hl
      simp at hl
  · have heq : equivalences eqRows fid = Except.ok (eqRows.filterMap fun row =>
        match row with
        | (ns, id_, fid2) => if fid2 = fid then some (ns, id_) else none) := by
      simp [equivalences, hemp]
    have hne : (eqRows.filterMap fun row =>
        match row with
        | (ns, id_, fid2) => if fid2 = fid then some (ns, id_) else none) ≠ [] := by
      intro hn
      exact hemp (by simp [hn])
    constructor
    · refine iff_of_false (fun h => ?_) (fun hall => ?_)
      · rw [heq] at h
        simp at h
      · rcases List.exists_mem_of_ne_nil _ hne with ⟨p, hp⟩
        exact hall (p.1, p.2, fid) (mem_equivFilter.mp hp) rfl
    · intro l hl
      rw [heq] at hl
      rcases Except.ok.inj hl with hleq
      rw [← hleq]
      exact ⟨hne, fun p => mem_equivFilter⟩

/-- C9 (witness): the id ESR with one equivalence row yields exactly it. -/
theorem equivalences_error_iff_no_row_witness :
    (("BEL", "ESR Family") : String × String) ∈
        ([("BEL", "ESR Family")] : List (String × String)) ↔
      (("BEL", "ESR Family", "ESR") : String × String × String) ∈ eqRowsESR :=
  (((equivalences_error_iff_no_row eqRowsESR "ESR").2
    [("BEL", "ESR Family")] rfl).2) ("BEL", "ESR Family")

/-- C10: every term of the ontology is related to itself by `isa`, `partof`
and `refinement_of`, although the graph stores no self edges: the traversal
yields its source first and the relatedness loop compares the target against
every yielded node, the source included. -/
theorem self_relatedness :
    ∀ (rels : List Relation) (ns id_ : String),
      in_famplex rels ns id_ = true →
      isa rels ns id_ ns id_ = true ∧ partof rels ns id_ ns id_ = true ∧
      refinement_of rels ns id_ ns id_ = true := by
  intro rels ns id_ h
  have hne := in_famplex_iff.mp h
  exact ⟨_rel_self_of_mapped hne, _rel_self_of_mapped hne,
    _rel_self_of_mapped hne⟩

/-- C10 (witness): A has no self edge in the single-edge graph, yet all three
self relations hold. -/
theorem self_relatedness_witness :
    in_famplex relsSingle "FPLX" "A" = true ∧
    isa relsSingle "FPLX" "A" "FPLX" "A" = true ∧
    partof relsSingle "FPLX" "A" "FPLX" "A" = true ∧
    refinement_of relsSingle "FPLX" "A" "FPLX" "A" = true :=
  ⟨by decide, self_relatedness relsSingle "FPLX" "A" (by decide)⟩
